import Mathlib

/-!
A verification development for the forward-computation core of the
per-feature tabular transformer (`src/tabpfn/model/transformer.py`).
The Python tensor pipeline is shallowly embedded: tensors become nested
lists, the NaN sentinel becomes `Option.none`, assertion failures become
`Except.error`, and the global torch RNG becomes an explicit `Nat` state
threaded through the computation.
-/

/-! ## Feature-group padding (`PerFeatureTransformer._forward`, lines 446-467)

Each named input stream `x[k]` of shape (seq, batch, features) is padded
along the feature axis with zeros up to the next multiple of
`features_per_group`:

    missing_to_next = (features_per_group - (num_features_ % features_per_group))
                        % features_per_group
    if missing_to_next > 0: x[k] = torch.cat((x[k], zeros(..., missing_to_next)), dim=-1)
-/

/-- The number of zero columns appended: Python's
`(features_per_group - (f % features_per_group)) % features_per_group`. -/
def missingToNext (featuresPerGroup f : Nat) : Nat :=
  (featuresPerGroup - f % featuresPerGroup) % featuresPerGroup

/-- Pad one (seq, batch) row of the feature axis with zeros up to the next
multiple of `featuresPerGroup`; identity when no columns are missing,
mirroring the `if missing_to_next > 0` guard. -/
def padFeatures (featuresPerGroup : Nat) (row : List Int) : List Int :=
  let missing := missingToNext featuresPerGroup row.length
  if missing > 0 then row ++ List.replicate missing 0 else row

/-- Apply the feature-axis padding to a whole (seq, batch, features) stream. -/
def padStream (featuresPerGroup : Nat) (t : List (List (List Int))) :
    List (List (List Int)) :=
  t.map (fun batchRows => batchRows.map (padFeatures featuresPerGroup))

/-! ## Categorical index remapping (`PerFeatureTransformer._forward`, lines 479-502)

    for batch_idx in range(batch_size):
        for subgroup in range(n_subgroups):
            subgroup_lower = subgroup * self.features_per_group
            subgroup_upper = (subgroup + 1) * self.features_per_group
            subgroup_indices = [i - subgroup_lower
                                for i in categorical_inds[batch_idx]
                                if subgroup_lower <= i < subgroup_upper]
            new_categorical_inds.append(subgroup_indices)
-/

/-- The indices of one batch element restricted to one subgroup, shifted to
within-group offsets. -/
def subgroupIndices (featuresPerGroup subgroup : Nat) (inds : List Nat) : List Nat :=
  (inds.filter (fun i =>
      decide (subgroup * featuresPerGroup ≤ i) &&
      decide (i < (subgroup + 1) * featuresPerGroup))).map
    (fun i => i - subgroup * featuresPerGroup)

/-- The full remapping: one list per (batch element, subgroup) pair, batch-major. -/
def remapCategoricalInds (featuresPerGroup nSubgroups : Nat)
    (categoricalInds : List (List Nat)) : List (List Nat) :=
  categoricalInds.flatMap (fun batchInds =>
    (List.range nSubgroups).map (fun subgroup =>
      subgroupIndices featuresPerGroup subgroup batchInds))

/-! ## Target shape normalization, split-consistent padding and leakage masking
(`PerFeatureTransformer._forward`, lines 504-540)

For the "main" target stream (one batch column, entries `Option Int` with
`none` as the NaN sentinel), the code does:

    if y[k].shape[1] < x["main"].shape[1]:
        assert y[k].shape[1] == single_eval_pos_ or y[k].shape[1] == x["main"].shape[1]
        assert k != "main" or y[k].shape[1] == single_eval_pos_
        if y[k].shape[1] == single_eval_pos_:
            y[k] = torch.cat((y[k], nan * zeros(...)), dim=1)
    ...
    y["main"][single_eval_pos_:] = torch.nan
-/

/-- Line 540, `y["main"][single_eval_pos_:] = torch.nan`: position `i` keeps
its value iff `i < p`, every later position becomes the NaN sentinel. -/
def maskFrom (p : Nat) : List (Option Int) → List (Option Int)
  | [] => []
  | v :: vs => (if 0 < p then v else none) :: maskFrom (p - 1) vs

/-- The whole "main"-target processing of lines 512-540 for one batch column:
length check and NaN padding when shorter than the sequence, then the
unconditional leakage mask. `Except.error` models an `AssertionError`. -/
def processMainTarget (p seqLen : Nat) (ys : List (Option Int)) :
    Except String (List (Option Int)) :=
  if ys.length < seqLen then
    if ys.length = p ∨ ys.length = seqLen then
      if ys.length = p then
        Except.ok (maskFrom p (ys ++ List.replicate (seqLen - ys.length) none))
      else
        Except.error "AssertionError: for main y, y must not be given for target time steps"
    else
      Except.error "AssertionError: y length must be single_eval_pos or seq_len"
  else
    Except.ok (maskFrom p ys)

/-! ### Basic lemmas about the target mask -/

theorem maskFrom_length (p : Nat) (ys : List (Option Int)) :
    (maskFrom p ys).length = ys.length := by
  induction ys generalizing p with
  | nil => rfl
  | cons v vs ih => simp [maskFrom, ih]

theorem maskFrom_get? (p : Nat) (ys : List (Option Int)) (i : Nat) :
    (maskFrom p ys)[i]? = (ys[i]?).map (fun v => if i < p then v else none) := by
  induction ys generalizing p i with
  | nil => simp [maskFrom]
  | cons v vs ih =>
    cases i with
    | zero =>
      cases p with
      | zero => simp [maskFrom]
      | succ q => simp [maskFrom]
    | succ j =>
      cases p with
      | zero =>
        simpa [maskFrom] using ih 0 j
      | succ q =>
        have := ih q j
        simp [maskFrom, this, Nat.succ_lt_succ_iff]

/-- Two streams of equal length agreeing strictly below `p` have the same mask. -/
theorem maskFrom_congr (p : Nat) (ys₁ ys₂ : List (Option Int))
    (hlen : ys₁.length = ys₂.length)
    (hagree : ∀ i, i < p → ys₁[i]? = ys₂[i]?) :
    maskFrom p ys₁ = maskFrom p ys₂ := by
  apply List.ext_getElem?
  intro i
  rw [maskFrom_get?, maskFrom_get?]
  by_cases hip : i < p
  · rw [hagree i hip]
  · by_cases hi : i < ys₁.length
    · have hi₂ : i < ys₂.length := hlen ▸ hi
      rw [List.getElem?_eq_getElem hi, List.getElem?_eq_getElem hi₂]
      simp [hip]
    · rw [List.getElem?_eq_none (by omega), List.getElem?_eq_none (by omega)]

/-! ### Lemmas about the feature-group padding -/

theorem padFeatures_length (g : Nat) (row : List Int) :
    (padFeatures g row).length = row.length + missingToNext g row.length := by
  unfold padFeatures
  by_cases h : missingToNext g row.length > 0
  · simp [h]
  · simp [h]
    omega

theorem missingToNext_lt (g f : Nat) (hg : 0 < g) : missingToNext g f < g :=
  Nat.mod_lt _ hg

theorem missingToNext_add_mod (g f : Nat) (hg : 0 < g) :
    (f + missingToNext g f) % g = 0 := by
  unfold missingToNext
  have hr : f % g < g := Nat.mod_lt _ hg
  by_cases h0 : f % g = 0
  · simp [h0, Nat.mod_self, h0]
  · have hlt : g - f % g < g := by omega
    rw [Nat.mod_eq_of_lt hlt]
    have hdm := Nat.div_add_mod f g
    have hmul : (f / g + 1) * g = g * (f / g) + g := by ring
    have : f + (g - f % g) = (f / g + 1) * g := by omega
    rw [this]
    exact Nat.mul_mod_left _ _

theorem padFeatures_mod (g : Nat) (hg : 0 < g) (row : List Int) :
    (padFeatures g row).length % g = 0 := by
  rw [padFeatures_length]
  exact missingToNext_add_mod g row.length hg

theorem padFeatures_take (g : Nat) (row : List Int) :
    (padFeatures g row).take row.length = row := by
  unfold padFeatures
  by_cases h : missingToNext g row.length > 0
  · simp [h]
  · simp [h]

theorem padFeatures_pad_zero (g : Nat) (row : List Int) (i : Nat)
    (hlo : row.length ≤ i) (hhi : i < (padFeatures g row).length) :
    (padFeatures g row)[i]? = some 0 := by
  rw [padFeatures_length] at hhi
  unfold padFeatures
  have hmiss : missingToNext g row.length > 0 := by omega
  simp only [hmiss, if_pos]
  rw [List.getElem?_append_right hlo]
  rw [List.getElem?_replicate]
  simp only [if_pos (by omega : i - row.length < missingToNext g row.length)]

theorem padFeatures_of_multiple (g : Nat) (row : List Int)
    (h : row.length % g = 0) : padFeatures g row = row := by
  unfold padFeatures missingToNext
  simp [h, Nat.mod_self]

theorem padFeatures_min (g : Nat) (hg : 0 < g) (row : List Int) (m : Nat)
    (hm : row.length ≤ m) (hmod : m % g = 0) :
    (padFeatures g row).length ≤ m := by
  have hlen := padFeatures_length g row
  have hmiss := missingToNext_lt g row.length hg
  have hpmod := padFeatures_mod g hg row
  obtain ⟨a, ha⟩ := Nat.dvd_of_mod_eq_zero hpmod
  obtain ⟨b, hb⟩ := Nat.dvd_of_mod_eq_zero hmod
  by_contra hlt
  push_neg at hlt
  have h1 : g * b < g * a := by omega
  have h2 : b < a := Nat.lt_of_mul_lt_mul_left h1
  have h3 : g * (b + 1) ≤ g * a := Nat.mul_le_mul_left g h2
  have h4 : g * (b + 1) = g * b + g := by ring
  omega

/-- **C3.** For every input stream of shape (sequence, batch, f), the
feature-group padding step (lines 446-467 of `_forward`) maps each
(sequence, batch) row to its zero-padded version whose feature count is
the smallest multiple of `features_per_group` that is `≥ f`; the first `f`
columns keep the original values, the remaining columns are exactly zero,
and a row whose feature count is already a multiple of
`features_per_group` is unchanged. -/
theorem padding_to_feature_groups (featuresPerGroup : Nat)
    (hg : 0 < featuresPerGroup) (t : List (List (List Int))) :
    (∀ (si bi : Nat) (row : List Int), (t[si]?.bind fun r : List (List Int) => r[bi]?) = some row →
        ((padStream featuresPerGroup t)[si]?.bind fun r : List (List Int) => r[bi]?)
          = some (padFeatures featuresPerGroup row))
    ∧ (∀ row : List Int,
        (padFeatures featuresPerGroup row).length % featuresPerGroup = 0
        ∧ row.length ≤ (padFeatures featuresPerGroup row).length
        ∧ (∀ m, row.length ≤ m → m % featuresPerGroup = 0 →
            (padFeatures featuresPerGroup row).length ≤ m)
        ∧ (padFeatures featuresPerGroup row).take row.length = row
        ∧ (∀ i, row.length ≤ i → i < (padFeatures featuresPerGroup row).length →
            (padFeatures featuresPerGroup row)[i]? = some 0)
        ∧ (row.length % featuresPerGroup = 0 →
            padFeatures featuresPerGroup row = row)) := by
  constructor
  · intro si bi row h
    rcases hsi : t[si]? with _ | batchRows
    · rw [hsi] at h; simp at h
    · rw [hsi] at h
      simp only [Option.some_bind] at h
      unfold padStream
      rw [List.getElem?_map, hsi]
      simp [List.getElem?_map, h]
  · intro row
    refine ⟨padFeatures_mod _ hg _, ?_, ?_, padFeatures_take _ _, ?_, ?_⟩
    · rw [padFeatures_length]; omega
    · intro m hm hmod
      exact padFeatures_min _ hg _ m hm hmod
    · intro i hlo hhi
      exact padFeatures_pad_zero _ _ _ hlo hhi
    · intro h
      exact padFeatures_of_multiple _ _ h

/-- Witness for `padding_to_feature_groups` at `features_per_group = 2` and
the stream `[[[1, 2, 3]]]`: the padded row is `[1, 2, 3, 0]`. -/
theorem padding_to_feature_groups_witness :
    ((padStream 2 [[[(1 : Int), 2, 3]]])[0]?.bind fun r : List (List Int) => r[0]?)
        = some (padFeatures 2 [(1 : Int), 2, 3])
    ∧ (padFeatures 2 [(1 : Int), 2, 3]).take 3 = [(1 : Int), 2, 3]
    ∧ (padFeatures 2 [(1 : Int), 2, 3])[3]? = some 0
    ∧ (padFeatures 2 [(1 : Int), 2, 3]).length ≤ 4 :=
  ⟨(padding_to_feature_groups 2 (by decide) [[[(1 : Int), 2, 3]]]).1 0 0
      [(1 : Int), 2, 3] (by decide),
    ((padding_to_feature_groups 2 (by decide) []).2 [(1 : Int), 2, 3]).2.2.2.1,
    ((padding_to_feature_groups 2 (by decide) []).2 [(1 : Int), 2, 3]).2.2.2.2.1 3
      (by decide) (by decide),
    ((padding_to_feature_groups 2 (by decide) []).2 [(1 : Int), 2, 3]).2.2.1 4
      (by decide) (by decide)⟩

/-! ### Lemmas about the categorical index remapping -/

theorem remapCategoricalInds_cons (fpg nSub : Nat) (a : List Nat)
    (as : List (List Nat)) :
    remapCategoricalInds fpg nSub (a :: as)
      = ((List.range nSub).map fun s => subgroupIndices fpg s a)
          ++ remapCategoricalInds fpg nSub as := by
  simp [remapCategoricalInds]

theorem remapCategoricalInds_length (fpg nSub : Nat) (inds : List (List Nat)) :
    (remapCategoricalInds fpg nSub inds).length = inds.length * nSub := by
  induction inds with
  | nil => simp [remapCategoricalInds]
  | cons a as ih =>
    rw [remapCategoricalInds_cons]
    simp [ih]
    ring

theorem remapCategoricalInds_get (fpg nSub : Nat) (inds : List (List Nat))
    (b g : Nat) (hb : b < inds.length) (hg : g < nSub) :
    (remapCategoricalInds fpg nSub inds)[b * nSub + g]?
      = some (subgroupIndices fpg g (inds.get ⟨b, hb⟩)) := by
  induction inds generalizing b with
  | nil => exact absurd hb (by simp)
  | cons a as ih =>
    rw [remapCategoricalInds_cons]
    cases b with
    | zero =>
      have hglt : g < ((List.range nSub).map fun s => subgroupIndices fpg s a).length := by
        simp [hg]
      rw [Nat.zero_mul, Nat.zero_add, List.getElem?_append, if_pos hglt,
        List.getElem?_map, List.getElem?_range hg]
      rfl
    | succ b' =>
      have hb' : b' < as.length := Nat.lt_of_succ_lt_succ hb
      have hlen : ((List.range nSub).map fun s => subgroupIndices fpg s a).length = nSub := by
        simp
      have hge : nSub ≤ (b' + 1) * nSub + g := by
        have := Nat.le_mul_of_pos_left nSub (show 0 < b' + 1 by omega)
        omega
      rw [List.getElem?_append_right (by rw [hlen]; exact hge)]
      rw [hlen]
      have hidx : (b' + 1) * nSub + g - nSub = b' * nSub + g := by
        have hsm : (b' + 1) * nSub = b' * nSub + nSub := by ring
        omega
      rw [hidx, ih b' hb']
      rfl

theorem subgroupIndices_eq_filterMap (fpg g : Nat) (xs : List Nat) :
    subgroupIndices fpg g xs
      = xs.filterMap (fun i =>
          if g * fpg ≤ i ∧ i < (g + 1) * fpg then some (i - g * fpg) else none) := by
  induction xs with
  | nil => rfl
  | cons a as ih =>
    unfold subgroupIndices at ih ⊢
    rw [List.filter_cons, List.filterMap_cons]
    by_cases h : g * fpg ≤ a ∧ a < (g + 1) * fpg
    · have hp : (decide (g * fpg ≤ a) && decide (a < (g + 1) * fpg)) = true := by
        simp [h.1, h.2]
      simp only [hp, if_pos h, if_true, List.map_cons]
      rw [ih]
    · have hp : (decide (g * fpg ≤ a) && decide (a < (g + 1) * fpg)) = false := by
        rcases Decidable.not_and_iff_or_not.mp h with h' | h' <;> simp [h']
      simp only [hp, if_neg h, Bool.false_eq_true, if_false]
      exact ih

/-- **C10.** The categorical-index remapping (lines 479-502 of `_forward`)
produces one list per (batch element, feature group) pair in batch-major
order; the entry for batch `b` and group `g` collects exactly the flat
indices `i` with `g*features_per_group ≤ i < (g+1)*features_per_group`,
each mapped to its within-group offset `i - g*features_per_group`; in
particular `[[1, 3]]` with `features_per_group = 2` and two groups remaps
to `[[1], [1]]`. -/
theorem categorical_index_remapping (featuresPerGroup nSubgroups : Nat)
    (categoricalInds : List (List Nat)) :
    ((remapCategoricalInds featuresPerGroup nSubgroups categoricalInds).length
        = categoricalInds.length * nSubgroups)
    ∧ (∀ (b g : Nat) (hb : b < categoricalInds.length), g < nSubgroups →
        (remapCategoricalInds featuresPerGroup nSubgroups
            categoricalInds)[b * nSubgroups + g]?
          = some (subgroupIndices featuresPerGroup g (categoricalInds.get ⟨b, hb⟩)))
    ∧ (∀ (g : Nat) (xs : List Nat),
        subgroupIndices featuresPerGroup g xs
          = xs.filterMap (fun i =>
              if g * featuresPerGroup ≤ i ∧ i < (g + 1) * featuresPerGroup then
                some (i - g * featuresPerGroup)
              else none))
    ∧ remapCategoricalInds 2 2 [[1, 3]] = [[1], [1]] := by
  refine ⟨remapCategoricalInds_length _ _ _, ?_, ?_, by decide⟩
  · intro b g hb hg
    exact remapCategoricalInds_get _ _ _ b g hb hg
  · intro g xs
    exact subgroupIndices_eq_filterMap _ g xs

/-- Witness for `categorical_index_remapping`: with `features_per_group = 2`,
two groups and categorical indices `[[1, 3]]`, the (batch 0, group 1) slot
holds the within-group offsets of `[1, 3]` in group 1. -/
theorem categorical_index_remapping_witness :
    (remapCategoricalInds 2 2 [[1, 3]])[0 * 2 + 1]?
      = some (subgroupIndices 2 1 ([[1, 3]].get ⟨0, by decide⟩)) :=
  (categorical_index_remapping 2 2 [[1, 3]]).2.1 0 1 (by decide) (by decide)

/-! ### C1 / C4: the label-leakage invariant and the supply assertion -/

/-- **C1.** Every sequence position `≥ p` of the "main" target stream is
the NaN sentinel after the processing of lines 512-540 (in particular
line 540's unconditional mask runs before the y-encoder), so two calls
whose "main" targets are identical except at positions `≥ p` hand the
y-encoder identical streams, and any downstream prediction function of
that stream yields identical evaluation-row predictions. -/
theorem label_leakage_invariant (p seqLen : Nat) (ys₁ ys₂ : List (Option Int))
    (hlen : ys₁.length = ys₂.length)
    (hagree : ∀ i, i < p → ys₁[i]? = ys₂[i]?) :
    processMainTarget p seqLen ys₁ = processMainTarget p seqLen ys₂
    ∧ (∀ out, processMainTarget p seqLen ys₁ = Except.ok out →
        ∀ i, p ≤ i → i < out.length → out[i]? = some none)
    ∧ (∀ (β : Type) (predict : List (Option Int) → β),
        (processMainTarget p seqLen ys₁).map predict
          = (processMainTarget p seqLen ys₂).map predict) := by
  have key : processMainTarget p seqLen ys₁ = processMainTarget p seqLen ys₂ := by
    unfold processMainTarget
    rw [hlen]
    by_cases h1 : ys₂.length < seqLen
    · simp only [if_pos h1]
      by_cases h2 : ys₂.length = p ∨ ys₂.length = seqLen
      · simp only [if_pos h2]
        by_cases h3 : ys₂.length = p
        · simp only [if_pos h3]
          congr 1
          apply maskFrom_congr
          · simp [hlen]
          · intro i hip
            have hi1 : i < ys₁.length := by omega
            have hi2 : i < ys₂.length := by omega
            rw [List.getElem?_append, List.getElem?_append, if_pos hi1, if_pos hi2]
            exact hagree i hip
        · simp only [if_neg h3]
      · simp only [if_neg h2]
    · simp only [if_neg h1]
      congr 1
      exact maskFrom_congr p ys₁ ys₂ hlen hagree
  refine ⟨key, ?_, ?_⟩
  · intro out hout i hpi hilen
    have hmask : ∃ base, out = maskFrom p base := by
      unfold processMainTarget at hout
      by_cases h1 : ys₁.length < seqLen
      · rw [if_pos h1] at hout
        by_cases h2 : ys₁.length = p ∨ ys₁.length = seqLen
        · rw [if_pos h2] at hout
          by_cases h3 : ys₁.length = p
          · rw [if_pos h3] at hout
            exact ⟨_, (Except.ok.inj hout).symm⟩
          · rw [if_neg h3] at hout
            exact Except.noConfusion hout
        · rw [if_neg h2] at hout
          exact Except.noConfusion hout
      · rw [if_neg h1] at hout
        exact ⟨_, (Except.ok.inj hout).symm⟩
    obtain ⟨base, hbase⟩ := hmask
    subst hbase
    rw [maskFrom_length] at hilen
    rw [maskFrom_get?, List.getElem?_eq_getElem hilen]
    have hnp : ¬ i < p := by omega
    simp [hnp]
  · intro β predict
    rw [key]

/-- Witness for `label_leakage_invariant`: `p = 1`, `seqLen = 2`, streams
`[some 1, some 2]` and `[some 1, some 3]` differing only at the evaluation
position. -/
theorem label_leakage_invariant_witness :
    processMainTarget 1 2 [some 1, some 2] = processMainTarget 1 2 [some 1, some 3] :=
  (label_leakage_invariant 1 2 [some 1, some 2] [some 1, some 3] rfl
    (by intro i hi; have h0 : i = 0 := by omega
        subst h0; rfl)).1

/-- **C4 counterexample.** With `single_eval_pos = 1` and sequence length 2,
the "main" target `[some 5, some 7]` supplies an entry at evaluation
position `1 ≥ p`, yet `processMainTarget` raises no assertion error: the
full-length stream is accepted and its evaluation row is silently
overwritten with the sentinel (the assertion at lines 517-520 is guarded
by `y[k].shape[1] < x["main"].shape[1]` and never fires on a full-length
stream). -/
theorem main_target_supply_counterexample :
    ([some (5 : Int), some 7] : List (Option Int))[1]? = some (some 7)
    ∧ (¬ ∃ e, processMainTarget 1 2 [some 5, some 7] = Except.error e)
    ∧ processMainTarget 1 2 [some 5, some 7] = Except.ok [some 5, none] := by
  refine ⟨rfl, ?_, rfl⟩
  rintro ⟨e, he⟩
  rw [show processMainTarget 1 2 [some 5, some 7] = Except.ok [some 5, none] from rfl] at he
  exact Except.noConfusion he

/-- **C4 amended.** Supplying a "main" target stream strictly shorter than
the sequence raises an assertion error unless its length is exactly
`single_eval_pos`; a full-length "main" target stream never raises, and
its rows at positions `≥ single_eval_pos` are overwritten with the NaN
sentinel instead. -/
theorem main_target_supply_amended (p seqLen : Nat) (ys : List (Option Int)) :
    (ys.length < seqLen → ys.length ≠ p →
        ∃ e, processMainTarget p seqLen ys = Except.error e)
    ∧ (ys.length = seqLen →
        processMainTarget p seqLen ys = Except.ok (maskFrom p ys)) := by
  constructor
  · intro hlt hne
    unfold processMainTarget
    rw [if_pos hlt]
    by_cases h2 : ys.length = p ∨ ys.length = seqLen
    · rw [if_pos h2, if_neg hne]
      exact ⟨_, rfl⟩
    · rw [if_neg h2]
      exact ⟨_, rfl⟩
  · intro heq
    unfold processMainTarget
    rw [if_neg (by omega)]

/-- Witness for `main_target_supply_amended`: a length-2 "main" target with
`single_eval_pos = 1` and sequence length 3 raises; the same target with
sequence length 2 (full length) is accepted and masked. -/
theorem main_target_supply_amended_witness :
    (∃ e, processMainTarget 1 3 [some 1, some 2] = Except.error e)
    ∧ processMainTarget 1 2 [some 9, some 8] = Except.ok (maskFrom 1 [some 9, some 8]) :=
  ⟨(main_target_supply_amended 1 3 [some 1, some 2]).1 (by decide) (by decide),
    (main_target_supply_amended 1 2 [some 9, some 8]).2 rfl⟩

/-! ## LayerStack (`LayerStack.forward`, lines 66-91)

    if half_layers:
        assert self.min_num_layers_layer_dropout == self.num_layers
        n_layers = self.num_layers // 2
    else:
        n_layers = torch.randint(low=self.min_num_layers_layer_dropout,
                                 high=self.num_layers + 1, size=(1,)).item()
    for layer in self.layers[:n_layers]:
        x = layer(x, **kwargs)

Layers are embedded as pure functions; the `torch.randint` draw is an
explicit argument `draw` whose support `[min_num_layers, num_layers]`
follows from `low`/`high`; `num_layers` is `layers.length` (the stack is
built from `num_layers` calls of the layer factory). -/

/-- Sequential application of the prefix of layers taken by the slice
`self.layers[:n_layers]`. -/
def applyLayers {α : Type} : List (α → α) → α → α
  | [], x => x
  | f :: fs, x => applyLayers fs (f x)

/-- `LayerStack.forward`; `Except.error` models the `half_layers` assertion. -/
def layerStackForward {α : Type} (layers : List (α → α))
    (minNumLayersLayerDropout : Nat) (halfLayers : Bool) (draw : Nat) (x : α) :
    Except String α :=
  if halfLayers then
    if minNumLayersLayerDropout = layers.length then
      Except.ok (applyLayers (layers.take (layers.length / 2)) x)
    else
      Except.error "AssertionError: half_layers only works without layer dropout"
  else
    Except.ok (applyLayers (layers.take draw) x)

theorem applyLayers_append {α : Type} (fs gs : List (α → α)) (x : α) :
    applyLayers (fs ++ gs) x = applyLayers gs (applyLayers fs x) := by
  induction fs generalizing x with
  | nil => rfl
  | cons f fs ih => simp [applyLayers, ih]

/-- **C5.** With `N = layers.length` layers and dropout floor `M`:
`half_layers = true` requires `M = N` (otherwise an assertion error) and
applies exactly the first `N / 2` layers; `half_layers = false` applies,
for the drawn integer `n ∈ [M, N]`, exactly the first `n` layers in index
order, and the result never depends on (hence never evaluates) any layer
with index `≥ n`. -/
theorem layer_stack_depth (α : Type) (layers : List (α → α))
    (M draw : Nat) (x : α) :
    (M = layers.length →
        layerStackForward layers M true draw x
          = Except.ok (applyLayers (layers.take (layers.length / 2)) x))
    ∧ (M ≠ layers.length →
        ∃ e, layerStackForward layers M true draw x = Except.error e)
    ∧ (M ≤ draw → draw ≤ layers.length →
        layerStackForward layers M false draw x
          = Except.ok (applyLayers (layers.take draw) x)
        ∧ ∀ layers' : List (α → α), layers'.take draw = layers.take draw →
            layerStackForward layers' M false draw x
              = layerStackForward layers M false draw x) := by
  refine ⟨?_, ?_, ?_⟩
  · intro h
    unfold layerStackForward
    rw [if_pos rfl, if_pos h]
  · intro h
    unfold layerStackForward
    rw [if_pos rfl, if_neg h]
    exact ⟨_, rfl⟩
  · intro _ _
    constructor
    · rfl
    · intro layers' hpre
      unfold layerStackForward
      rw [if_neg (by simp), if_neg (by simp), hpre]

/-- Witness for `layer_stack_depth`: a two-layer stack of integer maps,
floor `M = 1`, drawn depth `1`: only the first layer runs, and a stack
with a different second layer gives the same output. -/
theorem layer_stack_depth_witness :
    (layerStackForward [fun n : Int => n + 10, fun n : Int => n * 3] 2 true 0 5
        = Except.ok (applyLayers ([fun n : Int => n + 10, fun n : Int => n * 3].take 1) 5))
    ∧ (∃ e, layerStackForward [fun n : Int => n + 10, fun n : Int => n * 3] 1 true 0 5
        = Except.error e)
    ∧ layerStackForward [fun n : Int => n + 10, fun n : Int => n * 3] 1 false 1 5
        = Except.ok (applyLayers ([fun n : Int => n + 10, fun n : Int => n * 3].take 1) 5)
    ∧ layerStackForward [fun n : Int => n + 10, fun n : Int => n * 100] 1 false 1 5
        = layerStackForward [fun n : Int => n + 10, fun n : Int => n * 3] 1 false 1 5 :=
  ⟨(layer_stack_depth Int [fun n => n + 10, fun n => n * 3] 2 0 5).1 rfl,
    (layer_stack_depth Int [fun n => n + 10, fun n => n * 3] 1 0 5).2.1 (by decide),
    ((layer_stack_depth Int [fun n => n + 10, fun n => n * 3] 1 1 5).2.2
        (by decide) (by decide)).1,
    ((layer_stack_depth Int [fun n => n + 10, fun n => n * 3] 1 1 5).2.2
        (by decide) (by decide)).2 [fun n => n + 10, fun n => n * 100] rfl⟩

/-! ## RNG isolation scope (`isolate_torch_rng`, lines 29-40)

    torch_rng_state = torch.get_rng_state()
    if torch.cuda.is_available():
        torch_cuda_rng_state = torch.cuda.get_rng_state(device=device)
    torch.manual_seed(seed)
    try:
        yield
    finally:
        torch.set_rng_state(torch_rng_state)
        if torch.cuda.is_available():
            torch.cuda.set_rng_state(torch_cuda_rng_state, device=device)

The global generator state is a pair (CPU state, device state); CUDA
availability is a fixed flag. The wrapped computation (`yield`) is an
arbitrary state transformer that may also raise (`Except.error`); the
`finally` block runs on both outcomes. -/

/-- The global torch generator state: the CPU generator and the generator
of the device passed to the scope. -/
structure TorchRngState where
  cpu : Nat
  cuda : Nat
  deriving DecidableEq, Repr

/-- `torch.manual_seed(seed)`: reseeds the CPU generator and, when CUDA is
available, all device generators, deterministically from `seed`. -/
def manualSeed (cudaAvailable : Bool) (seed : Nat) (s : TorchRngState) :
    TorchRngState :=
  if cudaAvailable then { cpu := seed, cuda := seed }
  else { s with cpu := seed }

/-- `isolate_torch_rng`: save, reseed, run the body, restore in `finally`.
The body returns its outcome (a value or a raised error) together with the
generator state it leaves behind. -/
def isolate_torch_rng {ε α : Type} (cudaAvailable : Bool) (seed : Nat)
    (body : TorchRngState → Except ε α × TorchRngState) (s : TorchRngState) :
    Except ε α × TorchRngState :=
  let torchRngState := s.cpu
  let torchCudaRngState := if cudaAvailable then some s.cuda else none
  let seeded := manualSeed cudaAvailable seed s
  let (res, s') := body seeded
  let restoredCpu := { s' with cpu := torchRngState }
  let restored :=
    match torchCudaRngState with
    | some c => { restoredCpu with cuda := c }
    | none => restoredCpu
  (res, restored)

/-- **C6.** For every seed, every CUDA-availability flag and every wrapped
computation (including one that raises), the scope restores the CPU
generator state, and the device generator state when CUDA is available,
to exactly the state saved on entry, while propagating the body's
outcome unchanged. -/
theorem rng_scope_restores_state (ε α : Type) (cudaAvailable : Bool) (seed : Nat)
    (body : TorchRngState → Except ε α × TorchRngState) (s : TorchRngState) :
    ((isolate_torch_rng cudaAvailable seed body s).2.cpu = s.cpu
      ∧ (cudaAvailable = true →
          (isolate_torch_rng cudaAvailable seed body s).2 = s))
    ∧ (isolate_torch_rng cudaAvailable seed body s).1
        = (body (manualSeed cudaAvailable seed s)).1 := by
  unfold isolate_torch_rng
  cases cudaAvailable with
  | false =>
    refine ⟨⟨rfl, by intro h; exact absurd h (by simp)⟩, rfl⟩
  | true =>
    refine ⟨⟨rfl, ?_⟩, rfl⟩
    intro _
    rfl

/-- Witness for `rng_scope_restores_state`: CUDA available, seed 3, a body
that consumes randomness (leaving state (99, 77)) and raises; the caller's
state (5, 6) is fully restored and the error propagates. -/
theorem rng_scope_restores_state_witness :
    (isolate_torch_rng true 3
        (fun _ => ((Except.error 0 : Except Nat Nat), { cpu := 99, cuda := 77 }))
        { cpu := 5, cuda := 6 }).2 = { cpu := 5, cuda := 6 }
    ∧ (isolate_torch_rng true 3
        (fun _ => ((Except.error 0 : Except Nat Nat), { cpu := 99, cuda := 77 }))
        { cpu := 5, cuda := 6 }).1 = Except.error 0 :=
  ⟨(rng_scope_restores_state Nat Nat true 3
      (fun _ => (Except.error 0, { cpu := 99, cuda := 77 }))
      { cpu := 5, cuda := 6 }).1.2 rfl,
    (rng_scope_restores_state Nat Nat true 3
      (fun _ => (Except.error 0, { cpu := 99, cuda := 77 }))
      { cpu := 5, cuda := 6 }).2⟩

/-! ## `add_embeddings` and the RNG (`add_embeddings` lines 659-780,
`_add_pos_emb` lines 866-897)

The global torch generator is modelled as a `Nat` stream position: one
`torch.randint` element draws the value `g % 2` and advances the stream by
one; a tensor-filling call of `n` elements advances it by `n`.

Layout of `add_embeddings` in the source: the
`with isolate_torch_rng(self.seed, device=x.device):` block spans only the
feature-positional-embedding sampling (lines 679-719).  The `data_dags`
loop (lines 730-776) runs AFTER the block has exited, so the per-dimension
sign randomization `sign = -1 + 2 * torch.randint(0, 2, (k,))` inside
`_add_pos_emb` (line 892) draws from the caller-visible global generator,
not from the isolated, seeded one. -/

/-- One element of `torch.randint(0, 2, ...)` on the modelled stream. -/
def randint01 (g : Nat) : Nat × Nat := (g % 2, g + 1)

/-- The `k` sign factors `-1 + 2 * torch.randint(0, 2, (k,))` of
`_add_pos_emb`, drawn from stream position `g`. -/
def signDraws : Nat → Nat → List Int × Nat
  | 0, g => ([], g)
  | k + 1, g =>
    let (v, g') := randint01 g
    let (rest, g'') := signDraws k g'
    ((-1 + 2 * (v : Int)) :: rest, g'')

/-- The `data_dags` loop: one `_add_pos_emb` call per DAG, each drawing `k`
sign bits from the global stream. -/
def dagSignLoop : Nat → Nat → Nat → List (List Int) × Nat
  | 0, _, g => ([], g)
  | numDags + 1, k, g =>
    let (s, g') := signDraws k g
    let (rest, g'') := dagSignLoop numDags k g'
    (s :: rest, g'')

/-- The configured `feature_positional_embedding` kind. -/
inductive FeaturePositionalEmbedding where
  | normalRandVec
  | uniRandVec
  | learned
  | subspace
  deriving DecidableEq, Repr

/-- Number of random elements the embedding-sampling branch consumes inside
the scope: `randn((nGroups, emsize))`, `rand((nGroups, emsize))`,
`randint(0, ..., (nGroups,))` or `randn((nGroups, emsize // 4))`. -/
def fpeDrawCount (kind : Option FeaturePositionalEmbedding)
    (nGroups emsize : Nat) : Nat :=
  match kind with
  | some .normalRandVec => nGroups * emsize
  | some .uniRandVec => nGroups * emsize
  | some .learned => nGroups
  | some .subspace => nGroups * (emsize / 4)
  | none => 0

/-- The RNG trace of one `add_embeddings` call: the scope samples the
feature positional embedding and restores the entry state; the `data_dags`
loop then draws its signs from the restored global stream.  Returns the
signs drawn per DAG and the final caller-visible stream position. -/
def add_embeddings_rngTrace (seed : Nat)
    (kind : Option FeaturePositionalEmbedding)
    (nGroups emsize numDags k g : Nat) : List (List Int) × Nat :=
  let scopeRes := isolate_torch_rng false seed
    (fun st =>
      ((Except.ok () : Except Unit Unit),
        { st with cpu := st.cpu + fpeDrawCount kind nGroups emsize }))
    { cpu := g, cuda := 0 }
  dagSignLoop numDags k scopeRes.2.cpu

theorem signDraws_state (k g : Nat) : (signDraws k g).2 = g + k := by
  induction k generalizing g with
  | zero => rfl
  | succ k ih =>
    show (signDraws k (g + 1)).2 = g + (k + 1)
    rw [ih]
    omega

theorem dagSignLoop_state (numDags k g : Nat) :
    (dagSignLoop numDags k g).2 = g + numDags * k := by
  induction numDags generalizing g with
  | zero => simp [dagSignLoop]
  | succ n ih =>
    show (dagSignLoop n k (signDraws k g).2).2 = g + (n + 1) * k
    rw [ih, signDraws_state]
    have : (n + 1) * k = n * k + k := by ring
    omega

/-- **C2 counterexample.** A call that supplies one dependency DAG (with
`k = 1`) does NOT leave the caller-visible global RNG state as it found
it (entry position 0, exit position 1), and two calls with identical
inputs but different caller RNG positions draw different signs — the DAG
sign randomization runs outside the RNG-isolated scope. -/
theorem dag_sign_rng_counterexample :
    (add_embeddings_rngTrace 0 none 1 8 1 1 0).2 ≠ 0
    ∧ (add_embeddings_rngTrace 0 none 1 8 1 1 0).1
        ≠ (add_embeddings_rngTrace 0 none 1 8 1 1 1).1 := by
  constructor
  · intro h
    exact absurd h (by decide)
  · intro h
    exact absurd h (by decide)

/-- **C2 amended.** The sampled feature-positional-embedding draws of
`add_embeddings` happen inside the RNG-isolated scope seeded from the
model's fixed seed, so a call with no DAGs leaves the caller-visible
global RNG state exactly as it found it; the DAG sign randomization,
however, runs after the scope has exited: a call supplying `numDags`
DAGs advances the caller-visible stream by `numDags * k` draws, and the
signs it draws are a function of the caller's RNG state at entry (not of
the model seed or the embedding kind). -/
theorem dag_sign_rng_amended (seed : Nat)
    (kind : Option FeaturePositionalEmbedding)
    (nGroups emsize numDags k g : Nat) :
    ((add_embeddings_rngTrace seed kind nGroups emsize 0 k g).2 = g)
    ∧ ((add_embeddings_rngTrace seed kind nGroups emsize numDags k g).2
        = g + numDags * k)
    ∧ ((add_embeddings_rngTrace seed kind nGroups emsize numDags k g).1
        = (dagSignLoop numDags k g).1) := by
  refine ⟨rfl, ?_, rfl⟩
  show (dagSignLoop numDags k g).2 = g + numDags * k
  exact dagSignLoop_state numDags k g

/-! ## `get_embedding` (`PerFeatureTransformer.get_embedding`, lines 782-811)

The method body reads `self.min_num_layers_layer_dropout`,
`self.num_layers`, `self.layers` and `self.recompute_each_layer` — the
attributes of `LayerStack`, none of which `PerFeatureTransformer.__init__`
(lines 170-277) ever assigns on the transformer itself; `nn.Module`
attribute lookup raises `AttributeError` for a name that is neither an
instance attribute nor a registered parameter/buffer/submodule. -/

/-- Python attribute lookup on an object with the given attribute names. -/
def getattrPy (attrs : List String) (name : String) : Except String Unit :=
  if name ∈ attrs then Except.ok () else Except.error ("AttributeError: " ++ name)

/-- The attribute reads performed by `get_embedding`, in source order: both
branches read `self.min_num_layers_layer_dropout` first (line 795 / 800),
then `self.num_layers` (line 796-797 / 801), then the loop reads
`self.layers` (line 805) and `self.recompute_each_layer` (line 806). -/
def get_embedding (attrs : List String) (halfLayers : Bool) :
    Except String Unit :=
  if halfLayers then do
    let _ ← getattrPy attrs "min_num_layers_layer_dropout"
    let _ ← getattrPy attrs "num_layers"
    let _ ← getattrPy attrs "layers"
    let _ ← getattrPy attrs "recompute_each_layer"
    Except.ok ()
  else do
    let _ ← getattrPy attrs "min_num_layers_layer_dropout"
    let _ ← getattrPy attrs "num_layers"
    let _ ← getattrPy attrs "layers"
    let _ ← getattrPy attrs "recompute_each_layer"
    Except.ok ()

/-- The instance attributes assigned by `PerFeatureTransformer.__init__`
(lines 170-277), in assignment order; the conditional ones depend on the
compression flag and the configured embedding kind. -/
def pftInitAttrs (useEncoderCompressionLayer : Bool)
    (featurePositionalEmbedding : Option FeaturePositionalEmbedding) :
    List String :=
  ["encoder", "y_encoder", "ninp", "nhid_factor", "features_per_group",
    "cache_trainset_representation", "cached_embeddings",
    "transformer_encoder", "transformer_decoder",
    "global_att_embeddings_for_compression"]
  ++ (if useEncoderCompressionLayer then ["encoder_compression_layer"] else [])
  ++ ["n_out", "decoder_dict", "feature_positional_embedding"]
  ++ (match featurePositionalEmbedding with
      | some .learned => ["feature_positional_embedding_embeddings"]
      | some .subspace => ["feature_positional_embedding_embeddings"]
      | _ => [])
  ++ ["dag_pos_enc_dim", "cached_feature_positional_embeddings", "seed"]

/-- **C7 (code bug).** For every model configuration and every value of
`half_layers`, calling `get_embedding` on a `PerFeatureTransformer` raises
`AttributeError` at its very first attribute read: the method uses
`LayerStack`'s attributes (`min_num_layers_layer_dropout`, `num_layers`,
`layers`, `recompute_each_layer`), which the transformer never defines, so
it can never return an embedding. -/
theorem get_embedding_always_raises (useEncoderCompressionLayer : Bool)
    (featurePositionalEmbedding : Option FeaturePositionalEmbedding)
    (halfLayers : Bool) :
    get_embedding
        (pftInitAttrs useEncoderCompressionLayer featurePositionalEmbedding)
        halfLayers
      = Except.error "AttributeError: min_num_layers_layer_dropout" := by
  cases useEncoderCompressionLayer <;> cases halfLayers <;>
    rcases featurePositionalEmbedding with _ | k <;>
    first
      | rfl
      | (cases k <;> rfl)

/-! ## `empty_trainset_representation_cache` (lines 813-815)

    for layer in (self.transformer_decoder or self.transformer_encoder).layers:
        layer.empty_trainset_representation_cache()

`self.transformer_decoder` is either `None` or a `LayerStack` (truthy), so
the loop clears the decoder's layers when a decoder is configured and the
encoder's layers otherwise — never both.  A layer's retained training-set
state is modelled as an `Option Nat` cache slot. -/

/-- The two layer stacks of the model, each layer carrying its
trainset-representation cache. -/
structure TransformerStacks where
  encoderLayers : List (Option Nat)
  decoderLayers : Option (List (Option Nat))
  deriving DecidableEq, Repr

/-- `empty_trainset_representation_cache`. -/
def emptyTrainsetRepresentationCache (m : TransformerStacks) :
    TransformerStacks :=
  match m.decoderLayers with
  | some ds => { m with decoderLayers := some (ds.map fun _ => none) }
  | none => { m with encoderLayers := m.encoderLayers.map fun _ => none }

/-- "No layer of the model retains training-set representation state". -/
def noLayerRetainsCache (m : TransformerStacks) : Bool :=
  m.encoderLayers.all (fun c => c == none)
    && (match m.decoderLayers with
        | some ds => ds.all (fun c => c == none)
        | none => true)

/-- **C8 counterexample.** On a model with a separate decoder whose encoder
layer holds cached state, `empty_trainset_representation_cache` clears
only the decoder layers: the encoder layer still retains its cache
afterwards, so not every attention layer of the model is cleared. -/
theorem cache_clear_counterexample :
    noLayerRetainsCache
        (emptyTrainsetRepresentationCache
          { encoderLayers := [some 5], decoderLayers := some [some 3] })
      = false
    ∧ (emptyTrainsetRepresentationCache
          { encoderLayers := [some 5], decoderLayers := some [some 3] }).encoderLayers
        = [some 5] := by
  constructor
  · rfl
  · rfl

/-- **C8 amended.** `empty_trainset_representation_cache` invokes the
cache-clearing operation on every layer of the decoder stack when one is
configured — leaving the encoder layers untouched — and otherwise on every
layer of the encoder stack; after the call, the stack it visited retains
no training-set representation state. -/
theorem cache_clear_amended (m : TransformerStacks) :
    (∀ ds, m.decoderLayers = some ds →
        (emptyTrainsetRepresentationCache m).decoderLayers
            = some (ds.map fun _ => none)
        ∧ (emptyTrainsetRepresentationCache m).encoderLayers = m.encoderLayers)
    ∧ (m.decoderLayers = none →
        (emptyTrainsetRepresentationCache m).encoderLayers
            = m.encoderLayers.map (fun _ => none)
        ∧ (emptyTrainsetRepresentationCache m).decoderLayers = none) := by
  rcases m with ⟨e, _ | ds⟩
  · refine ⟨?_, ?_⟩
    · intro ds h
      exact Option.noConfusion h
    · intro _
      exact ⟨rfl, rfl⟩
  · refine ⟨?_, ?_⟩
    · intro ds' h
      rw [Option.some.inj h] at *
      exact ⟨rfl, rfl⟩
    · intro h
      exact Option.noConfusion h

/-- Witness for `cache_clear_amended` on a model with a decoder stack and
on one without. -/
theorem cache_clear_amended_witness :
    ((emptyTrainsetRepresentationCache
        { encoderLayers := [some 5], decoderLayers := some [some 3] }).decoderLayers
      = some ([some 3].map fun _ => none)
    ∧ (emptyTrainsetRepresentationCache
        { encoderLayers := [some 5], decoderLayers := some [some 3] }).encoderLayers
      = [some 5])
    ∧ ((emptyTrainsetRepresentationCache
        { encoderLayers := [some 7], decoderLayers := none }).encoderLayers
      = [some 7].map (fun _ => none)
    ∧ (emptyTrainsetRepresentationCache
        { encoderLayers := [some 7], decoderLayers := none }).decoderLayers
      = none) :=
  ⟨(cache_clear_amended
      { encoderLayers := [some 5], decoderLayers := some [some 3] }).1
      [some 3] rfl,
    (cache_clear_amended
      { encoderLayers := [some 7], decoderLayers := none }).2 rfl⟩

/-! ## Transitive closure (`_networkx_add_direct_connections`, lines 840-863)

    added_connection = False
    nodes = list(graph.nodes)
    for node in nodes:
        neighbors = list(graph.neighbors(node))
        for neighbor in neighbors:
            second_neighbors = list(graph.neighbors(neighbor))
            for second_neighbor in second_neighbors:
                if second_neighbor not in graph.neighbors(node):
                    graph.add_edge(node, second_neighbor)
                    added_connection = True
    return added_connection

The graph mutates while the loops run: the outer node list is a snapshot,
each `list(graph.neighbors(...))` is a snapshot taken at that moment, and
the membership test consults the current graph.  The three loops are
embedded as three state-threading recursions. -/

/-- A directed graph as node list plus edge list. -/
structure DiGraph where
  nodes : List Nat
  edges : List (Nat × Nat)
  deriving DecidableEq, Repr

/-- `graph.neighbors(u)`: successors of `u`. -/
def neighbors (g : DiGraph) (u : Nat) : List Nat :=
  (g.edges.filter (fun e => decide (e.1 = u))).map (fun e => e.2)

/-- `graph.add_edge(u, v)`. -/
def addEdge (g : DiGraph) (u v : Nat) : DiGraph :=
  { g with edges := g.edges ++ [(u, v)] }

/-- Innermost loop over the snapshot of second neighbors. -/
def tcInner (node : Nat) : List Nat → DiGraph → Bool → DiGraph × Bool
  | [], g, added => (g, added)
  | sn :: rest, g, added =>
    if sn ∈ neighbors g node then tcInner node rest g added
    else tcInner node rest (addEdge g node sn) true

/-- Middle loop over the snapshot of `node`'s neighbors; the second-neighbor
snapshot is taken from the current graph. -/
def tcMiddle (node : Nat) : List Nat → DiGraph → Bool → DiGraph × Bool
  | [], g, added => (g, added)
  | nbr :: rest, g, added =>
    tcMiddle node rest (tcInner node (neighbors g nbr) g added).1
      (tcInner node (neighbors g nbr) g added).2

/-- Outer loop over the node snapshot; each node's neighbor snapshot is
taken from the current graph. -/
def tcOuter : List Nat → DiGraph → Bool → DiGraph × Bool
  | [], g, added => (g, added)
  | node :: rest, g, added =>
    tcOuter rest (tcMiddle node (neighbors g node) g added).1
      (tcMiddle node (neighbors g node) g added).2

/-- One pass of `_networkx_add_direct_connections`: the possibly augmented
graph and the `added_connection` flag. -/
def networkx_add_direct_connections (g : DiGraph) : DiGraph × Bool :=
  tcOuter g.nodes g false

/-- The 3-node chain A→B→C (nodes 0→1→2). -/
def chain3 : DiGraph := { nodes := [0, 1, 2], edges := [(0, 1), (1, 2)] }

/-- The transitively closed chain, as produced by one pass on `chain3`. -/
def chain3Closed : DiGraph :=
  { nodes := [0, 1, 2], edges := [(0, 1), (1, 2), (0, 2)] }

/-- Directed path from `u` to `w` through the listed intermediate nodes. -/
def isPathFrom (g : DiGraph) : Nat → List Nat → Nat → Bool
  | u, [], w => decide (w ∈ neighbors g u)
  | u, v :: rest, w => decide (v ∈ neighbors g u) && isPathFrom g v rest w

/-- Every edge endpoint is a node of the graph. -/
def edgeWf (g : DiGraph) : Prop :=
  ∀ e ∈ g.edges, e.1 ∈ g.nodes ∧ e.2 ∈ g.nodes

instance decidableEdgeWf (g : DiGraph) : Decidable (edgeWf g) :=
  inferInstanceAs (Decidable (∀ e ∈ g.edges, e.1 ∈ g.nodes ∧ e.2 ∈ g.nodes))

theorem mem_neighbors (g : DiGraph) (u v : Nat) :
    v ∈ neighbors g u ↔ (u, v) ∈ g.edges := by
  unfold neighbors
  constructor
  · intro h
    obtain ⟨e, he, hev⟩ := List.mem_map.mp h
    obtain ⟨hmem, hcond⟩ := List.mem_filter.mp he
    rcases e with ⟨a, b⟩
    have ha : a = u := by simpa using hcond
    have hb : b = v := hev
    rw [← ha, ← hb]
    exact hmem
  · intro h
    exact List.mem_map.mpr ⟨(u, v), List.mem_filter.mpr ⟨h, by simp⟩, rfl⟩

theorem tcInner_flag_mono (node : Nat) (sns : List Nat) (g : DiGraph) :
    (tcInner node sns g true).2 = true := by
  induction sns generalizing g with
  | nil => rfl
  | cons sn rest ih =>
    unfold tcInner
    by_cases h : sn ∈ neighbors g node
    · rw [if_pos h]
      exact ih g
    · rw [if_neg h]
      exact ih _

theorem tcInner_no_add (node : Nat) (sns : List Nat) (g : DiGraph) (added : Bool)
    (h : (tcInner node sns g added).2 = false) :
    added = false ∧ (tcInner node sns g added).1 = g
    ∧ ∀ sn ∈ sns, sn ∈ neighbors g node := by
  induction sns generalizing g added with
  | nil => exact ⟨h, rfl, by simp⟩
  | cons sn rest ih =>
    unfold tcInner at h ⊢
    by_cases hm : sn ∈ neighbors g node
    · rw [if_pos hm] at h ⊢
      obtain ⟨ha, hg, hall⟩ := ih g added h
      refine ⟨ha, hg, ?_⟩
      intro x hx
      rcases List.mem_cons.mp hx with h' | h'
      · rw [h']
        exact hm
      · exact hall x h'
    · rw [if_neg hm] at h
      rw [tcInner_flag_mono node rest (addEdge g node sn)] at h
      exact Bool.noConfusion h

theorem tcMiddle_flag_mono (node : Nat) (nbrs : List Nat) (g : DiGraph) :
    (tcMiddle node nbrs g true).2 = true := by
  induction nbrs generalizing g with
  | nil => rfl
  | cons nbr rest ih =>
    unfold tcMiddle
    rw [tcInner_flag_mono node (neighbors g nbr) g]
    exact ih _

theorem tcMiddle_no_add (node : Nat) (nbrs : List Nat) (g : DiGraph) (added : Bool)
    (h : (tcMiddle node nbrs g added).2 = false) :
    added = false ∧ (tcMiddle node nbrs g added).1 = g
    ∧ ∀ nbr ∈ nbrs, ∀ sn ∈ neighbors g nbr, sn ∈ neighbors g node := by
  induction nbrs generalizing g added with
  | nil => exact ⟨h, rfl, by simp⟩
  | cons nbr rest ih =>
    unfold tcMiddle at h ⊢
    obtain ⟨ha1, hg1, hall1⟩ :=
      ih (tcInner node (neighbors g nbr) g added).1
        (tcInner node (neighbors g nbr) g added).2 h
    obtain ⟨ha0, hg0, hsns⟩ := tcInner_no_add node (neighbors g nbr) g added ha1
    rw [hg0] at hg1 hall1
    refine ⟨ha0, ?_, ?_⟩
    · rw [hg0]
      exact hg1
    intro x hx sn hsn
    rcases List.mem_cons.mp hx with h' | h'
    · rw [h'] at hsn
      exact hsns sn hsn
    · exact hall1 x h' sn hsn

theorem tcOuter_flag_mono (ns : List Nat) (g : DiGraph) :
    (tcOuter ns g true).2 = true := by
  induction ns generalizing g with
  | nil => rfl
  | cons node rest ih =>
    unfold tcOuter
    rw [tcMiddle_flag_mono node (neighbors g node) g]
    exact ih _

theorem tcOuter_no_add (ns : List Nat) (g : DiGraph) (added : Bool)
    (h : (tcOuter ns g added).2 = false) :
    added = false ∧ (tcOuter ns g added).1 = g
    ∧ ∀ u ∈ ns, ∀ v ∈ neighbors g u, ∀ w ∈ neighbors g v, w ∈ neighbors g u := by
  induction ns generalizing g added with
  | nil => exact ⟨h, rfl, by simp⟩
  | cons node rest ih =>
    unfold tcOuter at h ⊢
    obtain ⟨ha1, hg1, hall1⟩ :=
      ih (tcMiddle node (neighbors g node) g added).1
        (tcMiddle node (neighbors g node) g added).2 h
    obtain ⟨ha0, hg0, hmid⟩ := tcMiddle_no_add node (neighbors g node) g added ha1
    rw [hg0] at hg1 hall1
    refine ⟨ha0, ?_, ?_⟩
    · rw [hg0]
      exact hg1
    intro u hu v hv w hw
    rcases List.mem_cons.mp hu with h' | h'
    · rw [h'] at hv ⊢
      exact hmid v hv w hw
    · exact hall1 u h' v hv w hw

theorem tcInner_id (node : Nat) (sns : List Nat) (g : DiGraph) (added : Bool)
    (h : ∀ sn ∈ sns, sn ∈ neighbors g node) :
    tcInner node sns g added = (g, added) := by
  induction sns with
  | nil => rfl
  | cons sn rest ih =>
    unfold tcInner
    rw [if_pos (h sn (List.mem_cons_self sn rest))]
    exact ih (fun x hx => h x (List.mem_cons_of_mem sn hx))

theorem tcMiddle_id (node : Nat) (nbrs : List Nat) (g : DiGraph) (added : Bool)
    (h : ∀ nbr ∈ nbrs, ∀ sn ∈ neighbors g nbr, sn ∈ neighbors g node) :
    tcMiddle node nbrs g added = (g, added) := by
  induction nbrs with
  | nil => rfl
  | cons nbr rest ih =>
    unfold tcMiddle
    rw [tcInner_id node (neighbors g nbr) g added (h nbr (List.mem_cons_self nbr rest))]
    exact ih (fun x hx => h x (List.mem_cons_of_mem nbr hx))

theorem tcOuter_id (ns : List Nat) (g : DiGraph) (added : Bool)
    (h : ∀ u ∈ ns, ∀ v ∈ neighbors g u, ∀ w ∈ neighbors g v, w ∈ neighbors g u) :
    tcOuter ns g added = (g, added) := by
  induction ns with
  | nil => rfl
  | cons node rest ih =>
    unfold tcOuter
    rw [tcMiddle_id node (neighbors g node) g added (h node (List.mem_cons_self node rest))]
    exact ih (fun x hx => h x (List.mem_cons_of_mem node hx))

/-- A fixed point of the pass (flag `false`) is closed under composing two
edges, for sources among the iterated nodes. -/
theorem pass_no_add_closed (g : DiGraph)
    (h : (networkx_add_direct_connections g).2 = false) :
    (networkx_add_direct_connections g).1 = g
    ∧ ∀ u ∈ g.nodes, ∀ v ∈ neighbors g u, ∀ w ∈ neighbors g v,
        w ∈ neighbors g u := by
  obtain ⟨_, hg, hall⟩ := tcOuter_no_add g.nodes g false h
  exact ⟨hg, hall⟩

/-- At a fixed point, every directed path is covered by a single edge. -/
theorem pass_fixed_point_paths (g : DiGraph) (hwf : edgeWf g)
    (hfix : (networkx_add_direct_connections g).2 = false)
    (u : Nat) (l : List Nat) (w : Nat) (hpath : isPathFrom g u l w = true) :
    w ∈ neighbors g u := by
  have hcl := (pass_no_add_closed g hfix).2
  induction l generalizing u with
  | nil => simpa [isPathFrom] using hpath
  | cons v rest ih =>
    unfold isPathFrom at hpath
    obtain ⟨h1, h2⟩ := Bool.and_eq_true_iff.mp hpath
    have huv : v ∈ neighbors g u := of_decide_eq_true h1
    have hvw : w ∈ neighbors g v := ih v h2
    have hu : u ∈ g.nodes := (hwf (u, v) ((mem_neighbors g u v).mp huv)).1
    exact hcl u hu v huv w hvw


theorem tcInner_edges_subset (node : Nat) (sns : List Nat) (g : DiGraph)
    (added : Bool) : g.edges ⊆ (tcInner node sns g added).1.edges := by
  induction sns generalizing g added with
  | nil => exact fun x hx => hx
  | cons sn rest ih =>
    unfold tcInner
    by_cases h : sn ∈ neighbors g node
    · rw [if_pos h]
      exact ih g added
    · rw [if_neg h]
      exact fun x hx =>
        ih (addEdge g node sn) true (List.mem_append_left _ hx)

theorem tcInner_nodes (node : Nat) (sns : List Nat) (g : DiGraph)
    (added : Bool) : (tcInner node sns g added).1.nodes = g.nodes := by
  induction sns generalizing g added with
  | nil => rfl
  | cons sn rest ih =>
    unfold tcInner
    by_cases h : sn ∈ neighbors g node
    · rw [if_pos h]
      exact ih g added
    · rw [if_neg h]
      exact ih (addEdge g node sn) true

theorem tcMiddle_edges_subset (node : Nat) (nbrs : List Nat) (g : DiGraph)
    (added : Bool) : g.edges ⊆ (tcMiddle node nbrs g added).1.edges := by
  induction nbrs generalizing g added with
  | nil => exact fun x hx => hx
  | cons nbr rest ih =>
    unfold tcMiddle
    exact fun x hx =>
      ih _ _ (tcInner_edges_subset node (neighbors g nbr) g added hx)

theorem tcMiddle_nodes (node : Nat) (nbrs : List Nat) (g : DiGraph)
    (added : Bool) : (tcMiddle node nbrs g added).1.nodes = g.nodes := by
  induction nbrs generalizing g added with
  | nil => rfl
  | cons nbr rest ih =>
    unfold tcMiddle
    rw [ih _ _, tcInner_nodes]

theorem tcOuter_edges_subset (ns : List Nat) (g : DiGraph) (added : Bool) :
    g.edges ⊆ (tcOuter ns g added).1.edges := by
  induction ns generalizing g added with
  | nil => exact fun x hx => hx
  | cons node rest ih =>
    unfold tcOuter
    exact fun x hx =>
      ih _ _ (tcMiddle_edges_subset node (neighbors g node) g added hx)

theorem tcOuter_nodes (ns : List Nat) (g : DiGraph) (added : Bool) :
    (tcOuter ns g added).1.nodes = g.nodes := by
  induction ns generalizing g added with
  | nil => rfl
  | cons node rest ih =>
    unfold tcOuter
    rw [ih _ _, tcMiddle_nodes]

/-- **C9.** The edge-adding pass of `_networkx_add_direct_connections`:
(1) at a fixed point (a pass reporting no additions) the graph is
unchanged and contains an edge `(u, w)` for every directed path from `u`
to `w` (for well-formed graphs whose edge endpoints are nodes);
(2) one pass on the 3-node chain A→B→C adds the edge A→C and reports an
addition; (3) on a graph already containing all transitive edges a single
pass adds nothing and returns `false` (the closure is idempotent);
(4) a pass never removes an edge and never changes the node set, so
iterating it only grows the edge set toward the fixed point. -/
theorem transitive_closure_fixed_point :
    (∀ g : DiGraph, edgeWf g →
        (networkx_add_direct_connections g).2 = false →
        (networkx_add_direct_connections g).1 = g
        ∧ ∀ (u : Nat) (l : List Nat) (w : Nat),
            isPathFrom g u l w = true → w ∈ neighbors g u)
    ∧ ((0, 2) ∈ (networkx_add_direct_connections chain3).1.edges
        ∧ (networkx_add_direct_connections chain3).2 = true
        ∧ networkx_add_direct_connections chain3 = (chain3Closed, true))
    ∧ (∀ g : DiGraph,
        (∀ u ∈ g.nodes, ∀ v ∈ neighbors g u, ∀ w ∈ neighbors g v,
            w ∈ neighbors g u) →
        networkx_add_direct_connections g = (g, false))
    ∧ (∀ g : DiGraph,
        g.edges ⊆ (networkx_add_direct_connections g).1.edges
        ∧ (networkx_add_direct_connections g).1.nodes = g.nodes) := by
  refine ⟨?_, ⟨by decide, by decide, by decide⟩, ?_, ?_⟩
  · intro g hwf hfix
    exact ⟨(pass_no_add_closed g hfix).1,
      fun u l w hp => pass_fixed_point_paths g hwf hfix u l w hp⟩
  · intro g h
    exact tcOuter_id g.nodes g false h
  · intro g
    exact ⟨tcOuter_edges_subset g.nodes g false, tcOuter_nodes g.nodes g false⟩

/-- Witness for `transitive_closure_fixed_point` on the closed 3-node
chain: the path 0→1→2 is covered by the direct edge 0→2, and a pass on
the closed graph is a no-op returning `false`. -/
theorem transitive_closure_fixed_point_witness :
    (2 : Nat) ∈ neighbors chain3Closed 0
    ∧ networkx_add_direct_connections chain3Closed = (chain3Closed, false) :=
  ⟨(transitive_closure_fixed_point.1 chain3Closed (by decide) (by decide)).2
      0 [1] 2 (by decide),
    transitive_closure_fixed_point.2.2.1 chain3Closed (by decide)⟩
